import Mathlib

/-!
Verification of the rpi-burner disk-imaging core (src/rpi_burner).

The Python modules are shallowly embedded: Python `str` values become Lean
`String`s and the string primitives the code relies on (`str.startswith`,
`str.replace`, `pathlib.Path(...).name`, f-string interpolation of an
optional value) are re-implemented below over the underlying character
lists, with Python's semantics.  Each OS interaction (`subprocess.run`,
`plistlib.loads`, `Path.exists`) is an explicit input: a query outcome, an
environment record, or an already-decoded plist structure, so that every
function of the code becomes a pure Lean function of the code's inputs.
-/

/-! ### Python string primitives -/

/-- Python `s.startswith(pre)`. -/
def pyStartsWith (s pre : String) : Bool := pre.data.isPrefixOf s.data

/-- Core of Python `str.replace` for a non-empty pattern `p :: ps`: every
non-overlapping occurrence, scanned left to right, is replaced by `rep`. -/
def replaceChars (p : Char) (ps : List Char) (rep : List Char) : List Char → List Char
  | [] => []
  | c :: rest =>
    if (p :: ps).isPrefixOf (c :: rest) then rep ++ replaceChars p ps rep (rest.drop ps.length)
    else c :: replaceChars p ps rep rest
termination_by l => l.length
decreasing_by
  · simp only [List.length_drop, List.length_cons]; omega
  · simp only [List.length_cons]; omega

/-- Python `s.replace(old, new)`.  The code only ever calls it with the fixed
non-empty pattern `"/dev/disk"`; the empty-pattern case is never exercised
and is modelled as the identity. -/
def pyReplace (s old new : String) : String :=
  match old.data with
  | [] => s
  | p :: ps => ⟨replaceChars p ps new.data s.data⟩

/-- `pat` occurs as a contiguous sublist of `l`. -/
def containsSub (pat : List Char) (l : List Char) : Bool :=
  pat.isPrefixOf l ||
    match l with
    | [] => false
    | _ :: rest => containsSub pat rest

/-- Split a character list at every occurrence of `sep`. -/
def splitOnChar (sep : Char) : List Char → List (List Char)
  | [] => [[]]
  | c :: rest =>
    if c = sep then [] :: splitOnChar sep rest
    else
      match splitOnChar sep rest with
      | [] => [[c]]
      | seg :: segs => (c :: seg) :: segs

/-- Python `pathlib.Path(s).name`: the last path component, after pathlib
drops empty components (doubled or trailing slashes) and `.` components;
`""` when no component remains. -/
def pathName (s : String) : String :=
  ⟨(((splitOnChar '/' s.data).filter fun seg => seg ≠ [] ∧ seg ≠ ['.']).getLast?.getD [])⟩

/-- Python `f"...{x}..."` on an `Optional[str]`: `str(None)` is `"None"`. -/
def pyStrOpt (o : Option String) : String :=
  match o with
  | some s => s
  | none => "None"

/-! ### models.py -/

/-- `models.Disk`: the dataclass, restricted to its stored fields. -/
structure Disk where
  device_path : String
  volume_name : String
  size_bytes : Nat
  file_system : String
  is_removable : Bool
  is_ejectable : Bool
deriving DecidableEq, Repr

/-! ### disk_detector.py — input data

`diskutil list -plist` output, as decoded by `plistlib.loads`, restricted to
the keys the code reads.  A missing key and the key's falsy default are
identified (`.get("VolumeName", "")` cannot tell them apart). -/

/-- One element of a disk entry's `"Partitions"` list.  `deviceIdentifier`
is kept optional because `cloud_init.get_boot_partition` reads it with
`partition.get('DeviceIdentifier')`, whose default is Python `None`. -/
structure PartitionEntry where
  volumeName : String := ""
  mountPoint : String := ""
  content : String := ""
  deviceIdentifier : Option String := none
deriving DecidableEq, Repr

/-- The scalar keys `list_external_disks` reads from a disk entry
(`DeviceIdentifier`, `Content`, `Size`, `Removable`, `Ejectable`). -/
structure DiskFields where
  deviceIdentifier : String := ""
  content : String := ""
  size : Nat := 0
  removable : Bool := false
  ejectable : Bool := false
deriving DecidableEq, Repr

/-- One element of `"AllDisksAndPartitions"`.  `diskKey` is the optional
`"Disk"` sub-dictionary (`none` models both an absent key and an empty,
hence falsy, dictionary); `selfFields` are the same keys read from the
entry itself, used when `diskKey` is falsy; `partitions` is the entry's
`"Partitions"` list. -/
structure DiskInfo where
  diskKey : Option DiskFields := none
  selfFields : DiskFields := {}
  partitions : List PartitionEntry := []
deriving DecidableEq, Repr

/-! ### disk_detector.py — code -/

/-- The partition scan loop of `list_external_disks`: each partition with a
truthy `VolumeName` overwrites `volume_name`, each truthy `MountPoint`
overwrites `mount_point`. -/
def scanPartitions (parts : List PartitionEntry) : String × String :=
  parts.foldl
    (fun acc part =>
      (if part.volumeName ≠ "" then part.volumeName else acc.1,
       if part.mountPoint ≠ "" then part.mountPoint else acc.2))
    ("", "")

/-- The body of `list_external_disks`' loop for one entry: `none` models
`continue` (no identifier) and a failed inclusion test, `some` an appended
`Disk`. -/
def processDiskInfo (info : DiskInfo) : Option Disk :=
  let entry := info.diskKey.getD info.selfFields
  if entry.deviceIdentifier = "" then none
  else
    let scanned := scanPartitions info.partitions
    let volumeName :=
      if scanned.1 = "" ∧ scanned.2 ≠ "" then pathName scanned.2 else scanned.1
    if entry.removable || entry.ejectable || scanned.2 ≠ "" || !info.partitions.isEmpty then
      some
        { device_path := "/dev/" ++ entry.deviceIdentifier
          volume_name := volumeName
          size_bytes := entry.size
          file_system := if entry.content = "" then "Unknown" else entry.content
          is_removable := entry.removable
          is_ejectable := entry.ejectable }
    else none

/-- `disk_detector.list_external_disks`, as a function of the decoded
`AllDisksAndPartitions` list. -/
def list_external_disks (resp : List DiskInfo) : List Disk :=
  resp.filterMap processDiskInfo

/-- The top-level keys `get_disk_info` reads from `diskutil info -plist`
output (missing keys are identified with their falsy defaults). -/
structure InfoPlist where
  deviceIdentifier : String := ""
  volumeName : String := ""
  size : Nat := 0
  content : String := ""
  removable : Bool := false
  ejectable : Bool := false
deriving DecidableEq, Repr

/-- `disk_detector.get_disk_info`, as a function of the decoded plist. -/
def get_disk_info (info : InfoPlist) : Disk :=
  { device_path := "/dev/" ++ info.deviceIdentifier
    volume_name := if info.volumeName = "" then "Untitled" else info.volumeName
    size_bytes := info.size
    file_system := if info.content = "" then "Unknown" else info.content
    is_removable := info.removable
    is_ejectable := info.ejectable }

/-- The exception a failing call of `disk_detector` propagates.  The module
defines `DiskDetectorError` but its two functions run `subprocess.run`
with `check=True` and decode with `plistlib.loads` without catching either
`subprocess.CalledProcessError` or plistlib's decode error, so those
exception types escape as they are. -/
inductive PyException where
  | calledProcessError (exitCode : Nat)
  | plistDecodeError
  | diskDetectorError (msg : String)
deriving DecidableEq, Repr

/-- `list_external_disks` including its OS interaction: the argument is the
outcome of `diskutil list -plist external physical` (`Except` exit code)
composed with the plist decode (`none` = undecodable output). -/
def list_external_disks_run (query : Except Nat (Option (List DiskInfo))) :
    Except PyException (List Disk) :=
  match query with
  | .error code => .error (.calledProcessError code)
  | .ok none => .error .plistDecodeError
  | .ok (some resp) => .ok (list_external_disks resp)

/-- `get_disk_info` including its OS interaction, as above for
`diskutil info -plist <device_path>`. -/
def get_disk_info_run (query : Except Nat (Option InfoPlist)) :
    Except PyException Disk :=
  match query with
  | .error code => .error (.calledProcessError code)
  | .ok none => .error .plistDecodeError
  | .ok (some info) => .ok (get_disk_info info)

/-! ### disk_writer.py -/

/-- `disk_writer.DiskWriterError`, split by the raise site relevant here. -/
inductive DiskWriterError where
  | imageNotFound (imagePath : String)
  | writeFailed (cmd : List String)
deriving DecidableEq, Repr

/-- `disk_writer.get_raw_device`: `/dev/diskN` becomes `/dev/rdiskN`; a path
already starting with `/dev/r` passes through unchanged. -/
def get_raw_device (device_path : String) : String :=
  if pyStartsWith device_path "/dev/r" then device_path
  else pyReplace device_path "/dev/disk" "/dev/rdisk"

/-- The `dd` argument vector `burn_image` builds. -/
def ddCommand (image_path raw_device : String) (progress : Bool) : List String :=
  ["dd", "if=" ++ image_path, "of=" ++ raw_device, "bs=1m"] ++
    (if progress then ["status=progress"] else [])

/-- The OS facts `burn_image` consults: `Path(image_path).exists()` and the
exit code `subprocess.run` observes for an argument vector. -/
structure OsEnv where
  pathExists : String → Bool
  runExitCode : List String → Nat

/-- `disk_writer.burn_image`.  The second component records the copy
invocation: `none` means no `dd` process was started. -/
def burn_image (env : OsEnv) (image_path device_path : String) (progress : Bool) :
    Except DiskWriterError Unit × Option (List String) :=
  if !env.pathExists image_path then (.error (.imageNotFound image_path), none)
  else
    let raw_device := get_raw_device device_path
    let cmd := ddCommand image_path raw_device progress
    if env.runExitCode cmd ≠ 0 then (.error (.writeFailed cmd), some cmd)
    else (.ok (), some cmd)

/-! ### cloud_init.py -/

/-- The FAT-family content tags `get_boot_partition` matches. -/
def fatContents : List String := ["DOS", "FAT32", "msdos", "Windows_FAT_32"]

/-- Inner loop of `get_boot_partition`: first partition of one disk entry
whose `Content` is FAT-family, rendered as `f"/dev/{...}"`. -/
def scanPartitionsForFat : List PartitionEntry → Option String
  | [] => none
  | part :: rest =>
    if part.content ∈ fatContents then some ("/dev/" ++ pyStrOpt part.deviceIdentifier)
    else scanPartitionsForFat rest

/-- Outer loop of `get_boot_partition` over `AllDisksAndPartitions`. -/
def scanDisksForFat : List DiskInfo → Option String
  | [] => none
  | info :: rest =>
    match scanPartitionsForFat info.partitions with
    | some s => some s
    | none => scanDisksForFat rest

/-- `cloud_init.get_boot_partition`: the `diskutil list -plist <device>`
invocation is the argument; `CalledProcessError` is caught and becomes
`None` (the plist decode, which the code does not guard, is taken as
given well-formed here — claim C7 is about the command failing). -/
def get_boot_partition (query : Except Nat (List DiskInfo)) : Option String :=
  match query with
  | .error _ => none
  | .ok disks => scanDisksForFat disks

/-- `cloud_init.CloudInitError`, split by the raise sites of
`load_cloud_config`. -/
inductive CloudInitError where
  | configNotFound (path : String)
  | invalidYaml (msg : String)
  | notDict
deriving DecidableEq, Repr

/-- A value `yaml.safe_load` can return, as far as `load_cloud_config`
distinguishes shapes.  A scalar is carried in the canonical plain token
form PyYAML would re-emit it in (re-serialising a canonical plain token
yields the token itself, so load-then-dump is the identity on them). -/
inductive YVal where
  | scalar (tok : String)
  | dict (entries : List (String × YVal))
  | seq (items : List YVal)
  | nullv

/-- Indentation PyYAML uses for block level `lvl`: two spaces per level. -/
def indentChars (lvl : Nat) : List Char := List.replicate (2 * lvl) ' '

/-- Lines of `yaml.dump(…, default_flow_style=False)` for a mapping's
entries at block level `lvl`: `key: token` for a scalar value, `key:`
followed by the indented sub-block for a mapping value.  `seq`/`nullv`
values lie outside the canonical fragment this development models (the
well-formedness predicate below excludes them) and produce no lines. -/
def dumpEntries (lvl : Nat) : List (String × YVal) → List (List Char)
  | [] => []
  | (k, .scalar tok) :: rest =>
    (indentChars lvl ++ k.data ++ ':' :: ' ' :: tok.data) :: dumpEntries lvl rest
  | (k, .dict es) :: rest =>
    (indentChars lvl ++ k.data ++ [':']) :: (dumpEntries (lvl + 1) es ++ dumpEntries lvl rest)
  | (_, .seq _) :: rest => dumpEntries lvl rest
  | (_, .nullv) :: rest => dumpEntries lvl rest

/-- The newline character (code point 10). -/
def newlineChar : Char := Char.ofNat 10

/-- Join dumped lines, each terminated by a newline, as PyYAML prints them. -/
def joinLines (lines : List (List Char)) : List Char :=
  lines.foldr (fun l acc => l ++ newlineChar :: acc) []

/-- `yaml.dump(config, default_flow_style=False)` for the root mapping
`load_cloud_config` passes it (the only shape that reaches the dump). -/
def yaml_dump (v : YVal) : String :=
  match v with
  | .dict es => ⟨joinLines (dumpEntries 0 es)⟩
  | _ => ""

/-- The outcome of `open(config_path)` + `yaml.safe_load(f)`: the file is
missing, the parse raises `yaml.YAMLError`, or a value is returned. -/
inductive ConfigSource where
  | missing
  | invalidYaml (msg : String)
  | parsed (root : YVal)

/-- `cloud_init.load_cloud_config`, as a function of the open/parse
outcome for `config_path`. -/
def load_cloud_config (config_path : String) (src : ConfigSource) :
    Except CloudInitError String :=
  match src with
  | .missing => .error (.configNotFound config_path)
  | .invalidYaml msg => .error (.invalidYaml msg)
  | .parsed root =>
    match root with
    | .dict es => .ok (yaml_dump (.dict es))
    | _ => .error .notDict

/-! ### Helper lemmas: Python string replace -/

theorem isPrefixOf_append_self (xs l : List Char) : xs.isPrefixOf (xs ++ l) = true := by
  induction xs with
  | nil => simp [List.isPrefixOf]
  | cons c cs ih => simp [List.isPrefixOf, ih]

theorem replaceChars_nil (p : Char) (ps rep : List Char) :
    replaceChars p ps rep [] = [] := by
  simp [replaceChars]

theorem replaceChars_cons (p : Char) (ps rep : List Char) (c : Char) (rest : List Char) :
    replaceChars p ps rep (c :: rest) =
      if (p :: ps).isPrefixOf (c :: rest) then
        rep ++ replaceChars p ps rep (rest.drop ps.length)
      else c :: replaceChars p ps rep rest := by
  simp [replaceChars]

theorem replaceChars_consume_pattern (p : Char) (ps rep l : List Char) :
    replaceChars p ps rep (p :: ps ++ l) = rep ++ replaceChars p ps rep l := by
  rw [List.cons_append, replaceChars_cons,
    if_pos (by rw [← List.cons_append]; exact isPrefixOf_append_self (p :: ps) l),
    List.drop_left]

theorem containsSub_cons_false {pat : List Char} {c : Char} {rest : List Char}
    (h : containsSub pat (c :: rest) = false) :
    pat.isPrefixOf (c :: rest) = false ∧ containsSub pat rest = false := by
  rw [containsSub] at h
  simpa using h

theorem replaceChars_no_occurrence (p : Char) (ps rep : List Char) :
    ∀ l, containsSub (p :: ps) l = false → replaceChars p ps rep l = l := by
  intro l
  induction l with
  | nil => intro _; exact replaceChars_nil p ps rep
  | cons c rest ih =>
    intro h
    obtain ⟨h1, h2⟩ := containsSub_cons_false h
    rw [replaceChars_cons, if_neg (by simp [h1]), ih h2]

theorem string_append_data (s t : String) : s ++ t = ⟨s.data ++ t.data⟩ := rfl

/-! ### Claim theorems: image writer -/

/-- Claim C1: `burn_image` fails with `DiskWriterError` and starts no copy
process when the image path does not reference an existing file, and fails
with `DiskWriterError` whenever the copy command exits non-zero. -/
theorem burn_image_error_paths (env : OsEnv) (image_path device_path : String)
    (progress : Bool) :
    (env.pathExists image_path = false →
      burn_image env image_path device_path progress =
        (.error (.imageNotFound image_path), none))
    ∧ (env.pathExists image_path = true →
      env.runExitCode (ddCommand image_path (get_raw_device device_path) progress) ≠ 0 →
      (burn_image env image_path device_path progress).1 =
        .error (.writeFailed (ddCommand image_path (get_raw_device device_path) progress))) := by
  constructor
  · intro h
    simp [burn_image, h]
  · intro h hexit
    simp [burn_image, h, hexit]

def envNoFile : OsEnv := ⟨fun _ => false, fun _ => 0⟩

def envCopyFails : OsEnv := ⟨fun _ => true, fun _ => 1⟩

theorem burn_image_error_paths_witness :
    burn_image envNoFile "rpi.img" "/dev/disk4" true =
      (.error (.imageNotFound "rpi.img"), none)
    ∧ (burn_image envCopyFails "rpi.img" "/dev/disk4" true).1 =
      .error (.writeFailed (ddCommand "rpi.img" (get_raw_device "/dev/disk4") true)) :=
  ⟨(burn_image_error_paths envNoFile "rpi.img" "/dev/disk4" true).1 rfl,
   (burn_image_error_paths envCopyFails "rpi.img" "/dev/disk4" true).2 rfl (by decide)⟩

/-- Claim C6: `get_raw_device` passes a path that already denotes a raw node
(`/dev/r` prefix) through unchanged, rewrites a `/dev/disk` prefix to
`/dev/rdisk` otherwise, and `burn_image`'s copy command always targets the
translated path. -/
theorem get_raw_device_translation (p s : String) :
    (pyStartsWith p "/dev/r" = true → get_raw_device p = p)
    ∧ (containsSub "/dev/disk".data s.data = false →
        get_raw_device ("/dev/disk" ++ s) = "/dev/rdisk" ++ s)
    ∧ (∀ (env : OsEnv) (image_path : String) (progress : Bool) (cmd : List String),
        (burn_image env image_path p progress).2 = some cmd →
        cmd = ddCommand image_path (get_raw_device p) progress) := by
  refine ⟨fun h => by simp [get_raw_device, h], fun h => ?_, ?_⟩
  · have hpre : pyStartsWith ("/dev/disk" ++ s) "/dev/r" = false := by
      simp [pyStartsWith, List.isPrefixOf]
    rw [get_raw_device, if_neg (by simp [hpre])]
    show (⟨replaceChars '/' "dev/disk".data "/dev/rdisk".data ("/dev/disk" ++ s).data⟩ :
      String) = "/dev/rdisk" ++ s
    rw [string_append_data "/dev/disk" s]
    show (⟨replaceChars '/' "dev/disk".data "/dev/rdisk".data
      ('/' :: "dev/disk".data ++ s.data)⟩ : String) = "/dev/rdisk" ++ s
    rw [replaceChars_consume_pattern, replaceChars_no_occurrence '/' "dev/disk".data _ s.data h,
      string_append_data "/dev/rdisk" s]
  · intro env image_path progress cmd h
    by_cases hex : env.pathExists image_path
    · by_cases hrun :
          env.runExitCode (ddCommand image_path (get_raw_device p) progress) = 0
      · simp [burn_image, hex, hrun] at h
        exact h.symm
      · simp [burn_image, hex, hrun] at h
        exact h.symm
    · simp [burn_image, hex] at h

/-! ### Claim theorems: device inventory error path (C4) -/

/-- Claim C4 (divergence): on a failing OS device query, both
`list_external_disks` and `get_disk_info` propagate the uncaught
`subprocess.CalledProcessError` — which is not the module's
`DiskDetectorError` — and return no partial result.  The claim's
`DeviceInventoryError` is never raised by the code. -/
theorem disk_detector_query_failure_exception (code : Nat) (msg : String) :
    list_external_disks_run (.error code) = .error (.calledProcessError code)
    ∧ get_disk_info_run (.error code) = .error (.calledProcessError code)
    ∧ PyException.calledProcessError code ≠ .diskDetectorError msg
    ∧ list_external_disks_run (.ok none) = .error .plistDecodeError
    ∧ PyException.plistDecodeError ≠ .diskDetectorError msg :=
  ⟨rfl, rfl, fun h => PyException.noConfusion h, rfl, fun h => PyException.noConfusion h⟩

/-! ### Claim theorems: volume label asymmetry (C5) -/

theorem scanPartitions_fold_init (parts : List PartitionEntry)
    (h : (parts.all fun part => part.volumeName = "" && part.mountPoint = "") = true) :
    ∀ acc : String × String,
      parts.foldl
        (fun acc part =>
          (if part.volumeName ≠ "" then part.volumeName else acc.1,
           if part.mountPoint ≠ "" then part.mountPoint else acc.2))
        acc = acc := by
  induction parts with
  | nil => intro acc; rfl
  | cons part rest ih =>
    intro acc
    simp only [List.all_cons, Bool.and_eq_true, decide_eq_true_eq] at h
    rw [List.foldl_cons]
    have hv : part.volumeName = "" := h.1.1
    have hm : part.mountPoint = "" := h.1.2
    rw [show
      ((if part.volumeName ≠ "" then part.volumeName else acc.1,
        if part.mountPoint ≠ "" then part.mountPoint else acc.2) : String × String) = acc by
        simp [hv, hm]]
    exact ih (by simpa using h.2) acc

/-- Claim C5: `get_disk_info` turns an empty (or missing) volume name into
exactly `"Untitled"`, while `list_external_disks` leaves an unresolvable
label as the empty string — the two are asymmetric on empty labels. -/
theorem volume_label_asymmetry :
    (∀ info : InfoPlist, info.volumeName = "" →
      (get_disk_info info).volume_name = "Untitled")
    ∧ ∀ (d : DiskInfo) (dsk : Disk),
        (d.partitions.all fun part => part.volumeName = "" && part.mountPoint = "") = true →
        dsk ∈ list_external_disks [d] → dsk.volume_name = "" := by
  constructor
  · intro info h
    simp [get_disk_info, h]
  · intro d dsk hall hmem
    have hscan : scanPartitions d.partitions = ("", "") :=
      scanPartitions_fold_init d.partitions hall ("", "")
    simp only [list_external_disks, List.filterMap_cons, List.filterMap_nil] at hmem
    rcases hproc : processDiskInfo d with _ | dsk'
    · rw [hproc] at hmem; simp at hmem
    · rw [hproc] at hmem
      simp only [List.mem_singleton] at hmem
      subst hmem
      rw [processDiskInfo] at hproc
      simp only [hscan] at hproc
      by_cases hid : (d.diskKey.getD d.selfFields).deviceIdentifier = ""
      · simp [hid] at hproc
      · simp only [hid, if_false] at hproc
        by_cases hinc :
            ((d.diskKey.getD d.selfFields).removable
              || (d.diskKey.getD d.selfFields).ejectable
              || !d.partitions.isEmpty) = true
        · simp only [ne_eq, not_true_eq_false, and_false, if_false] at hproc
          rw [if_pos (by simpa using hinc)] at hproc
          cases hproc
          rfl
        · rw [if_neg (by simpa using hinc)] at hproc
          cases hproc

def infoNoName : InfoPlist := { deviceIdentifier := "disk4", size := 32000000000 }

def diskNoLabels : DiskInfo :=
  { selfFields := { deviceIdentifier := "disk9", removable := true } }

theorem volume_label_asymmetry_witness :
    (get_disk_info infoNoName).volume_name = "Untitled"
    ∧ (Disk.mk "/dev/disk9" "" 0 "Unknown" true false).volume_name = "" :=
  ⟨volume_label_asymmetry.1 infoNoName rfl,
   volume_label_asymmetry.2 diskNoLabels (Disk.mk "/dev/disk9" "" 0 "Unknown" true false)
     (by decide) (by decide)⟩

/-! ### Claim theorems: boot partition scan (C7, C10) -/

theorem scanPartitionsForFat_eq_find (parts : List PartitionEntry) :
    scanPartitionsForFat parts =
      (parts.find? fun part => decide (part.content ∈ fatContents)).map
        fun part => "/dev/" ++ pyStrOpt part.deviceIdentifier := by
  induction parts with
  | nil => rfl
  | cons part rest ih =>
    by_cases h : part.content ∈ fatContents
    · rw [scanPartitionsForFat, if_pos h, List.find?_cons_of_pos _ (by simpa using h)]
      rfl
    · rw [scanPartitionsForFat, if_neg h, List.find?_cons_of_neg _ (by simpa using h)]
      exact ih

theorem scanDisksForFat_eq_find (disks : List DiskInfo) :
    scanDisksForFat disks =
      ((disks.flatMap fun info => info.partitions).find?
          (fun part => decide (part.content ∈ fatContents))).map
        fun part => "/dev/" ++ pyStrOpt part.deviceIdentifier := by
  induction disks with
  | nil => rfl
  | cons d rest ih =>
    rw [scanDisksForFat, scanPartitionsForFat_eq_find, List.flatMap_cons, List.find?_append]
    cases hfind : d.partitions.find? fun part => decide (part.content ∈ fatContents) with
    | none => simpa [hfind] using ih
    | some part => simp [hfind]

/-- Claim C7: `get_boot_partition` returns the rendered device path of the
first FAT-family partition in table order, and returns `none` — not an
error — when the query command fails, when there are no partitions at all,
and when no partition matches. -/
theorem get_boot_partition_first_fat (e : Nat) (disks : List DiskInfo) :
    get_boot_partition (.error e) = none
    ∧ get_boot_partition (.ok disks) =
        ((disks.flatMap fun info => info.partitions).find?
            (fun part => decide (part.content ∈ fatContents))).map
          (fun part => "/dev/" ++ pyStrOpt part.deviceIdentifier)
    ∧ ((∀ part ∈ disks.flatMap fun info => info.partitions, part.content ∉ fatContents) →
        get_boot_partition (.ok disks) = none) := by
  refine ⟨rfl, scanDisksForFat_eq_find disks, fun hnone => ?_⟩
  show scanDisksForFat disks = none
  rw [scanDisksForFat_eq_find disks, List.find?_eq_none.mpr fun part hmem => ?_, Option.map_none']
  simpa using hnone part hmem

theorem get_boot_partition_first_fat_witness :
    get_boot_partition
        (.ok [{ partitions := [{ content := "Apple_APFS" }, { content := "Linux" }] }]) =
      none :=
  (get_boot_partition_first_fat 0
    [{ partitions := [{ content := "Apple_APFS" }, { content := "Linux" }] }]).2.2
    (by decide)

/-- Claim C10: when the first FAT-family partition entry lacks a
`DeviceIdentifier`, `get_boot_partition` renders Python `None` into the
path and returns the literal `"/dev/None"` instead of skipping the entry
or returning none-found. -/
theorem get_boot_partition_missing_identifier :
    get_boot_partition (.ok [{ partitions := [{ content := "FAT32" }] }]) =
      some "/dev/None" := by
  decide

/-! ### Claim theorems: cloud config validation (C8) -/

/-- Claim C8: `load_cloud_config` fails with `CloudInitError` for a missing
source (with the distinct "not found" diagnostic, not a parse error), for
a syntactically invalid document, and for a document whose root is not a
mapping (scalar, sequence or null); a well-formed mapping document is
returned re-serialised in canonical form. -/
theorem load_cloud_config_cases (path msg tok : String) (es : List (String × YVal))
    (items : List YVal) :
    load_cloud_config path .missing = .error (.configNotFound path)
    ∧ (∀ m : String, CloudInitError.configNotFound path ≠ .invalidYaml m)
    ∧ load_cloud_config path (.invalidYaml msg) = .error (.invalidYaml msg)
    ∧ load_cloud_config path (.parsed (.scalar tok)) = .error .notDict
    ∧ load_cloud_config path (.parsed (.seq items)) = .error .notDict
    ∧ load_cloud_config path (.parsed .nullv) = .error .notDict
    ∧ load_cloud_config path (.parsed (.dict es)) = .ok (yaml_dump (.dict es)) :=
  ⟨rfl, fun _ h => CloudInitError.noConfusion h, rfl, rfl, rfl, rfl, rfl⟩

/-! ### Claim theorems: inclusion rule and label resolution (C2, C3) -/

/-- What one component of `scanPartitions`' fold computes: the initial value,
overwritten by every truthy element in turn. -/
def lastKeep (init : String) : List String → String
  | [] => init
  | s :: rest => lastKeep (if s ≠ "" then s else init) rest

theorem lastKeep_eq_getLastD (init : String) (xs : List String) :
    lastKeep init xs = (xs.filter fun x => x ≠ "").getLastD init := by
  induction xs generalizing init with
  | nil => rfl
  | cons s rest ih =>
    by_cases h : s = ""
    · subst h
      rw [lastKeep, if_neg (by simp), ih, List.filter_cons, if_neg (by simp)]
    · rw [lastKeep, if_pos h, ih, List.filter_cons, if_pos (by simpa using h),
        List.getLastD_cons]

theorem scanPartitions_eq_lastKeep (parts : List PartitionEntry) :
    scanPartitions parts =
      (lastKeep "" (parts.map fun part => part.volumeName),
       lastKeep "" (parts.map fun part => part.mountPoint)) := by
  show parts.foldl _ ("", "") = _
  suffices h : ∀ acc : String × String,
      parts.foldl
        (fun acc part =>
          (if part.volumeName ≠ "" then part.volumeName else acc.1,
           if part.mountPoint ≠ "" then part.mountPoint else acc.2))
        acc =
      (lastKeep acc.1 (parts.map fun part => part.volumeName),
       lastKeep acc.2 (parts.map fun part => part.mountPoint)) from h ("", "")
  induction parts with
  | nil => intro acc; rfl
  | cons part rest ih =>
    intro acc
    rw [List.foldl_cons, ih, List.map_cons, List.map_cons, lastKeep, lastKeep]

theorem getLastD_mem_of_ne_nil {α : Type} {l : List α} (d : α) (h : l ≠ []) :
    l.getLastD d ∈ l := by
  cases hl : l.getLast? with
  | none => exact absurd (List.getLast?_eq_none_iff.mp hl) h
  | some v =>
    rw [List.getLastD_eq_getLast?, hl]
    exact List.mem_of_getLast?_eq_some hl

theorem getLastD_ne_empty_of_all_ne {l : List String} (hall : ∀ x ∈ l, x ≠ "")
    (h : l ≠ []) : l.getLastD "" ≠ "" :=
  hall _ (getLastD_mem_of_ne_nil "" h)

theorem getLastD_filter_ne_empty {xs : List String} (h : (xs.filter fun x => x ≠ "") ≠ []) :
    (xs.filter fun x => x ≠ "").getLastD "" ≠ "" := by
  have hmem := getLastD_mem_of_ne_nil "" h
  simpa using (List.mem_filter.mp hmem).2

theorem label_if_eq (A B : List String) (hallA : ∀ x ∈ A, x ≠ "")
    (hallB : ∀ x ∈ B, x ≠ "") :
    (if A.getLastD "" = "" ∧ ¬B.getLastD "" = "" then pathName (B.getLastD "")
      else A.getLastD "") =
      (if A = [] then
        if B = [] then "" else pathName (B.getLastD "")
      else A.getLastD "") := by
  by_cases hv : A = []
  · subst hv
    rw [if_pos rfl]
    by_cases hm : B = []
    · subst hm
      simp
    · have hne := getLastD_ne_empty_of_all_ne hallB hm
      rw [if_neg hm, if_pos ⟨rfl, hne⟩]
  · have hne := getLastD_ne_empty_of_all_ne hallA hv
    rw [if_neg hv, if_neg fun hc => hne hc.1]

theorem lastKeep_empty_ne_iff (xs : List String) :
    lastKeep "" xs ≠ "" ↔ ∃ x ∈ xs, x ≠ "" := by
  rw [lastKeep_eq_getLastD]
  constructor
  · intro h
    have hne : (xs.filter fun x => x ≠ "") ≠ [] := by
      intro hnil
      rw [hnil] at h
      exact h rfl
    have hmem := getLastD_mem_of_ne_nil "" hne
    have hsplit := List.mem_filter.mp hmem
    exact ⟨_, hsplit.1, by simpa using hsplit.2⟩
  · rintro ⟨x, hmem, hne⟩
    apply getLastD_filter_ne_empty
    intro hnil
    rw [List.filter_eq_nil_iff] at hnil
    exact hne (by simpa using hnil x hmem)

/-- The spec's inclusion rule for one device entry: removable OR ejectable
OR at least one mounted partition OR at least one partition at all. -/
def includeRule (d : DiskInfo) : Bool :=
  let entry := d.diskKey.getD d.selfFields
  entry.removable || entry.ejectable
    || (d.partitions.any fun part => part.mountPoint ≠ "") || !d.partitions.isEmpty

/-- A device entry has a resolvable (truthy) device identifier. -/
def resolvable (d : DiskInfo) : Bool :=
  (d.diskKey.getD d.selfFields).deviceIdentifier ≠ ""

/-- The `Disk` `list_external_disks` materialises for an included entry. -/
def deviceOf (d : DiskInfo) : Disk :=
  let entry := d.diskKey.getD d.selfFields
  let scanned := scanPartitions d.partitions
  { device_path := "/dev/" ++ entry.deviceIdentifier
    volume_name :=
      if scanned.1 = "" ∧ scanned.2 ≠ "" then pathName scanned.2 else scanned.1
    size_bytes := entry.size
    file_system := if entry.content = "" then "Unknown" else entry.content
    is_removable := entry.removable
    is_ejectable := entry.ejectable }

theorem processDiskInfo_eq_rule (d : DiskInfo) :
    processDiskInfo d = if resolvable d && includeRule d then some (deviceOf d) else none := by
  have hmount : ((scanPartitions d.partitions).2 ≠ "") ↔
      (d.partitions.any fun part => part.mountPoint ≠ "") = true := by
    rw [scanPartitions_eq_lastKeep, lastKeep_empty_ne_iff]
    simp
  rw [processDiskInfo, resolvable, includeRule, deviceOf]
  by_cases hid : (d.diskKey.getD d.selfFields).deviceIdentifier = ""
  · simp [hid]
  · simp only [hid, if_false, ne_eq, decide_not, if_neg hid]
    by_cases hmp : (scanPartitions d.partitions).2 = ""
    · have hex : ¬∃ part ∈ d.partitions, ¬part.mountPoint = "" := by
        intro hx
        exact hmount.mpr (by simpa using hx) hmp
      simp [hmp, hex]
    · have hex : ∃ part ∈ d.partitions, ¬part.mountPoint = "" := by
        simpa using hmount.mp hmp
      simp only [hmp, hex]
      simp [hmp, hex]

/-- Claim C2: a device entry with a resolvable identifier appears in
`list_external_disks`' result exactly when it is removable, ejectable, has
a mounted partition, or has any partition at all; entries without a
resolvable identifier are skipped silently, and a response with only
non-qualifying entries yields the empty list. -/
theorem list_external_disks_inclusion (resp : List DiskInfo) :
    list_external_disks resp =
      (resp.filter fun d => resolvable d && includeRule d).map deviceOf
    ∧ ((∀ d ∈ resp, includeRule d = false) → list_external_disks resp = []) := by
  constructor
  · rw [list_external_disks]
    induction resp with
    | nil => rfl
    | cons d rest ih =>
      rw [List.filterMap_cons, List.filter_cons, processDiskInfo_eq_rule]
      by_cases h : resolvable d && includeRule d
      · rw [if_pos h, if_pos (by simpa using h), List.map_cons, ih]
      · rw [if_neg h, if_neg (by simpa using h), ih]
  · intro hall
    rw [list_external_disks, List.filterMap_eq_nil_iff]
    intro d hd
    rw [processDiskInfo_eq_rule, if_neg (by simp [hall d hd])]

def diskUnqualified : DiskInfo :=
  { selfFields := { deviceIdentifier := "disk0", content := "APFS", size := 500000000000 } }

theorem list_external_disks_inclusion_witness :
    list_external_disks [diskUnqualified] = [] :=
  (list_external_disks_inclusion [diskUnqualified]).2 (by decide)

/-- A device entry with two labelled partitions, in order `ALPHA`, `BETA`. -/
def diskTwoLabels : DiskInfo :=
  { selfFields := { deviceIdentifier := "disk7" }
    partitions := [{ volumeName := "ALPHA" }, { volumeName := "BETA" }] }

/-- Claim C3 counterexample: with partitions labelled `ALPHA` then `BETA`,
the produced label is `BETA` — the last non-empty label in partition
order, not the first (`ALPHA`) as claimed. -/
theorem first_label_counterexample :
    (list_external_disks [diskTwoLabels]).map (fun dsk => dsk.volume_name) = ["BETA"]
    ∧ (list_external_disks [diskTwoLabels]).map (fun dsk => dsk.volume_name) ≠ ["ALPHA"] := by
  constructor
  · decide
  · decide

/-- Claim C3 (amended): the produced label is the LAST non-empty partition
label in partition order; failing that, the path name of the LAST mounted
partition's mount path; failing that, the empty string. -/
theorem last_label_resolution (d : DiskInfo) (dsk : Disk)
    (hmem : dsk ∈ list_external_disks [d]) :
    dsk.volume_name =
      (let labels := (d.partitions.map fun part => part.volumeName).filter fun v => v ≠ ""
       let mounts := (d.partitions.map fun part => part.mountPoint).filter fun m => m ≠ ""
       if labels = [] then
         if mounts = [] then "" else pathName (mounts.getLastD "")
       else labels.getLastD "") := by
  simp only [list_external_disks, List.filterMap_cons, List.filterMap_nil,
    processDiskInfo_eq_rule] at hmem
  by_cases h : resolvable d && includeRule d
  · rw [if_pos h] at hmem
    simp only [List.mem_singleton] at hmem
    subst hmem
    show
      (if (scanPartitions d.partitions).1 = "" ∧ (scanPartitions d.partitions).2 ≠ "" then
        pathName (scanPartitions d.partitions).2
      else (scanPartitions d.partitions).1) = _
    rw [scanPartitions_eq_lastKeep, lastKeep_eq_getLastD, lastKeep_eq_getLastD]
    exact label_if_eq _ _
      (fun x hx => by simpa using (List.mem_filter.mp hx).2)
      (fun x hx => by simpa using (List.mem_filter.mp hx).2)
  · rw [if_neg h] at hmem
    simp at hmem

theorem last_label_resolution_witness :
    (Disk.mk "/dev/disk7" "BETA" 0 "Unknown" false false).volume_name = "BETA" :=
  (last_label_resolution diskTwoLabels
      (Disk.mk "/dev/disk7" "BETA" 0 "Unknown" false false) (by decide)).trans (by decide)

theorem get_raw_device_translation_witness :
    get_raw_device "/dev/rdisk3" = "/dev/rdisk3"
    ∧ get_raw_device ("/dev/disk" ++ "4") = "/dev/rdisk" ++ "4"
    ∧ ["dd", "if=rpi.img", "of=/dev/rdisk4", "bs=1m", "status=progress"] =
        ddCommand "rpi.img" (get_raw_device "/dev/disk4") true := by
  have hr : get_raw_device ("/dev/disk" ++ "4") = "/dev/rdisk" ++ "4" :=
    (get_raw_device_translation "/dev/disk4" "4").2.1 (by decide)
  have hr' : get_raw_device "/dev/disk4" = "/dev/rdisk4" := hr
  have hb : (burn_image envCopyFails "rpi.img" "/dev/disk4" true).2 =
      some ["dd", "if=rpi.img", "of=/dev/rdisk4", "bs=1m", "status=progress"] := by
    simp [burn_image, envCopyFails, ddCommand, hr']
  exact ⟨(get_raw_device_translation "/dev/rdisk3" "4").1 (by decide), hr,
    (get_raw_device_translation "/dev/disk4" "4").2.2 envCopyFails "rpi.img" true _ hb⟩

/-! ### Canonical YAML fragment (C9)

`load_cloud_config` re-serialises with `yaml.dump(config,
default_flow_style=False)`: keys sorted (`sort_keys` default), two-space
block indentation, `key: token` lines for scalar values and `key:` plus an
indented block for nested mappings.  The fragment modelled here is exactly
what such a dump emits for mappings whose keys and scalar tokens are plain
(unquoted) YAML tokens; `parseBlock` below is `yaml.safe_load` restricted
to that canonical text, inverted line by line.  A scalar is carried as its
canonical plain token, reflecting that PyYAML re-emits a canonical plain
token verbatim. -/

/-- A plain YAML token as PyYAML emits it unquoted: non-empty, made of
alphanumeric characters and `-`, `_`, `.`, `/`. -/
def plainToken (s : String) : Bool :=
  !s.data.isEmpty &&
    s.data.all fun c => c.isAlphanum || c = '-' || c = '_' || c = '.' || c = '/'

/-- Strict lexicographic order on character lists (the order `sort_keys`
sorts by). -/
def keyLt : List Char → List Char → Bool
  | [], [] => false
  | [], _ :: _ => true
  | _ :: _, [] => false
  | a :: as, b :: bs =>
    if a.toNat < b.toNat then true
    else if b.toNat < a.toNat then false
    else keyLt as bs

/-- Keys strictly increasing, as `sort_keys=True` leaves them. -/
def strictlySorted : List String → Bool
  | [] => true
  | [_] => true
  | a :: b :: rest => keyLt a.data b.data && strictlySorted (b :: rest)

/-- Mapping entries inside the canonical fragment: plain keys in strictly
sorted order, scalar values with plain tokens, nested mappings non-empty;
sequences and nulls lie outside the fragment. -/
def wfEntries : List (String × YVal) → Bool
  | [] => true
  | (k, .scalar tok) :: rest => plainToken k && plainToken tok && wfEntries rest
  | (k, .dict es) :: rest =>
    plainToken k && !es.isEmpty && strictlySorted (es.map Prod.fst) && wfEntries es &&
      wfEntries rest
  | (_, .seq _) :: _ => false
  | (_, .nullv) :: _ => false

/-- A document in canonical form: a non-empty sorted mapping of the
canonical fragment. -/
def canonicalDoc : YVal → Bool
  | .dict es => !es.isEmpty && strictlySorted (es.map Prod.fst) && wfEntries es
  | _ => false

/-- Leading-space count of a line. -/
def lineIndent : List Char → Nat
  | [] => 0
  | c :: rest => if c = ' ' then lineIndent rest + 1 else 0

/-- Split a line body at its first colon. -/
def splitAtColon : List Char → Option (List Char × List Char)
  | [] => none
  | c :: rest =>
    if c = ':' then some ([], rest)
    else
      match splitAtColon rest with
      | some (k, r) => some (c :: k, r)
      | none => none

/-- Parse a canonical block of mapping entries at level `lvl`: consumes
lines indented exactly `2 * lvl`, stops (returning the remaining lines)
at the first line indented less, fails on anything outside the canonical
grammar.  `fuel` bounds the recursion. -/
def parseBlock : Nat → Nat → List (List Char) →
    Option (List (String × YVal) × List (List Char))
  | 0, _, _ => none
  | _ + 1, _, [] => some ([], [])
  | fuel + 1, lvl, line :: rest =>
    if lineIndent line < 2 * lvl then some ([], line :: rest)
    else if lineIndent line = 2 * lvl then
      match splitAtColon (line.drop (2 * lvl)) with
      | none => none
      | some (k, r) =>
        if k.isEmpty then none
        else
          match r with
          | [] =>
            match parseBlock fuel (lvl + 1) rest with
            | none => none
            | some (sub, rest1) =>
              if sub.isEmpty then none
              else
                match parseBlock fuel lvl rest1 with
                | none => none
                | some (es, rest2) => some ((⟨k⟩, .dict sub) :: es, rest2)
          | sp :: tok =>
            if sp = ' ' && !tok.isEmpty then
              match parseBlock fuel lvl rest with
              | none => none
              | some (es, rest1) => some ((⟨k⟩, .scalar ⟨tok⟩) :: es, rest1)
            else none
    else none

/-- The first line of a character stream and the remainder after its
newline. -/
def firstLine : List Char → List Char × List Char
  | [] => ([], [])
  | c :: rest =>
    if c = newlineChar then ([], rest)
    else ((c :: (firstLine rest).1), (firstLine rest).2)

theorem firstLine_snd_length_le (l : List Char) : (firstLine l).2.length ≤ l.length := by
  induction l with
  | nil => exact Nat.le_refl 0
  | cons c rest ih =>
    rw [firstLine]
    by_cases h : c = newlineChar
    · simp [h]
    · simp only [h, if_false]
      exact Nat.le_succ_of_le ih

theorem firstLine_snd_length_lt (c : Char) (rest : List Char) :
    (firstLine (c :: rest)).2.length < (c :: rest).length := by
  rw [firstLine]
  by_cases h : c = newlineChar
  · simp [h]
  · simp only [h, if_false, List.length_cons]
    exact Nat.lt_succ_of_le (firstLine_snd_length_le rest)

/-- Split a character stream into its newline-terminated lines. -/
def splitLines : List Char → List (List Char)
  | [] => []
  | c :: rest => (firstLine (c :: rest)).1 :: splitLines (firstLine (c :: rest)).2
termination_by l => l.length
decreasing_by exact firstLine_snd_length_lt c rest

/-- `yaml.safe_load` on text in the canonical fragment: split into lines,
parse the level-0 block; empty text is YAML `null`. -/
def parse_canonical (text : String) : Option YVal :=
  match parseBlock ((splitLines text.data).length + 1) 0 (splitLines text.data) with
  | some (es, []) => if es.isEmpty then some .nullv else some (.dict es)
  | _ => none

/-- `load_cloud_config` re-run on already-canonical text: the open/parse
outcome is what `parse_canonical` yields on it. -/
def load_cloud_config_canonical (text : String) : Except CloudInitError String :=
  load_cloud_config text
    (match parse_canonical text with
     | none => .invalidYaml "canonical text did not reparse"
     | some root => .parsed root)

theorem plainToken_ne_nil {s : String} (h : plainToken s = true) : s.data ≠ [] := by
  rw [plainToken, Bool.and_eq_true] at h
  simpa using h.1

theorem plainToken_char {s : String} (h : plainToken s = true) {c : Char}
    (hc : c ∈ s.data) : c ≠ ':' ∧ c ≠ newlineChar ∧ c ≠ ' ' := by
  rw [plainToken, Bool.and_eq_true, List.all_eq_true] at h
  have hp := h.2 c hc
  refine ⟨?_, ?_, ?_⟩ <;> intro hEq <;> subst hEq <;> revert hp <;> decide

theorem splitAtColon_append {k : List Char} (r : List Char) (h : ':' ∉ k) :
    splitAtColon (k ++ ':' :: r) = some (k, r) := by
  induction k with
  | nil => simp [splitAtColon]
  | cons c k' ih =>
    have hc : c ≠ ':' := fun hEq => h (hEq ▸ List.mem_cons_self c k')
    rw [List.cons_append, splitAtColon, if_neg hc, ih fun hm => h (List.mem_cons_of_mem c hm)]

theorem lineIndent_replicate_cons (n : Nat) {c : Char} (hc : c ≠ ' ') (xs : List Char) :
    lineIndent (List.replicate n ' ' ++ c :: xs) = n := by
  induction n with
  | zero => simp [lineIndent, hc]
  | succ n ih => rw [List.replicate_succ, List.cons_append, lineIndent, if_pos rfl, ih]

theorem drop_replicate_append (n : Nat) (body : List Char) :
    (List.replicate n ' ' ++ body).drop n = body := by
  have h := List.drop_left (List.replicate n ' ') body
  rwa [List.length_replicate] at h

theorem dumpEntries_nil (lvl : Nat) : dumpEntries lvl [] = [] := by
  simp [dumpEntries]

theorem dumpEntries_scalar (lvl : Nat) (k tok : String) (es' : List (String × YVal)) :
    dumpEntries lvl ((k, .scalar tok) :: es') =
      (indentChars lvl ++ k.data ++ ':' :: ' ' :: tok.data) :: dumpEntries lvl es' := by
  simp [dumpEntries]

theorem dumpEntries_dict (lvl : Nat) (k : String) (sub es' : List (String × YVal)) :
    dumpEntries lvl ((k, .dict sub) :: es') =
      (indentChars lvl ++ k.data ++ [':']) ::
        (dumpEntries (lvl + 1) sub ++ dumpEntries lvl es') := by
  simp [dumpEntries]

theorem wfEntries_nil : wfEntries [] = true := by
  simp [wfEntries]

theorem wfEntries_scalar (k tok : String) (es' : List (String × YVal)) :
    wfEntries ((k, .scalar tok) :: es') =
      (plainToken k && plainToken tok && wfEntries es') := by
  simp [wfEntries]

theorem wfEntries_dict (k : String) (sub es' : List (String × YVal)) :
    wfEntries ((k, .dict sub) :: es') =
      (plainToken k && !sub.isEmpty && strictlySorted (sub.map Prod.fst) &&
        wfEntries sub && wfEntries es') := by
  simp [wfEntries]

theorem wfEntries_seq (k : String) (items : List YVal) (es' : List (String × YVal)) :
    wfEntries ((k, .seq items) :: es') = false := by
  simp [wfEntries]

theorem wfEntries_nullv (k : String) (es' : List (String × YVal)) :
    wfEntries ((k, .nullv) :: es') = false := by
  simp [wfEntries]

/-- The lines after a block: none left, or the next line dedents below
level `lvl`. -/
def blockEnd (lvl : Nat) : List (List Char) → Prop
  | [] => True
  | l :: _ => lineIndent l < 2 * lvl

theorem blockEnd_mono {lvl lvl' : Nat} (h : lvl ≤ lvl') {lines : List (List Char)}
    (hb : blockEnd lvl lines) : blockEnd lvl' lines := by
  cases lines with
  | nil => trivial
  | cons l ls =>
    show lineIndent l < 2 * lvl'
    have hlt : lineIndent l < 2 * lvl := hb
    omega

theorem dumpEntries_head_indent (lvl : Nat) {es : List (String × YVal)}
    (hwf : wfEntries es = true) (hne : es ≠ []) :
    ∃ l ls, dumpEntries lvl es = l :: ls ∧ lineIndent l = 2 * lvl := by
  cases es with
  | nil => exact absurd rfl hne
  | cons hd es' =>
    obtain ⟨k, v⟩ := hd
    cases v with
    | scalar tok =>
      rw [wfEntries_scalar, Bool.and_eq_true, Bool.and_eq_true] at hwf
      obtain ⟨c, cs, hdata⟩ := List.exists_cons_of_ne_nil (plainToken_ne_nil hwf.1.1)
      have hc : c ≠ ' ' := (plainToken_char hwf.1.1 (hdata ▸ List.mem_cons_self c cs)).2.2
      refine ⟨_, _, dumpEntries_scalar lvl k tok es', ?_⟩
      rw [List.append_assoc, indentChars, hdata, List.cons_append]
      exact lineIndent_replicate_cons (2 * lvl) hc _
    | dict sub =>
      rw [wfEntries_dict] at hwf
      simp only [Bool.and_eq_true] at hwf
      obtain ⟨c, cs, hdata⟩ := List.exists_cons_of_ne_nil (plainToken_ne_nil hwf.1.1.1.1)
      have hc : c ≠ ' ' :=
        (plainToken_char hwf.1.1.1.1 (hdata ▸ List.mem_cons_self c cs)).2.2
      refine ⟨_, _, dumpEntries_dict lvl k sub es', ?_⟩
      rw [List.append_assoc, indentChars, hdata, List.cons_append]
      exact lineIndent_replicate_cons (2 * lvl) hc _
    | seq items => rw [wfEntries_seq] at hwf; exact absurd hwf (by decide)
    | nullv => rw [wfEntries_nullv] at hwf; exact absurd hwf (by decide)

theorem blockEnd_dump_append {lvl : Nat} {es : List (String × YVal)}
    {rest : List (List Char)} (hwf : wfEntries es = true) (hend : blockEnd lvl rest) :
    blockEnd (lvl + 1) (dumpEntries lvl es ++ rest) := by
  by_cases hne : es = []
  · subst hne
    rw [dumpEntries_nil, List.nil_append]
    exact blockEnd_mono (Nat.le_succ lvl) hend
  · obtain ⟨l, ls, heq, hind⟩ := dumpEntries_head_indent lvl hwf hne
    rw [heq, List.cons_append]
    show lineIndent l < 2 * (lvl + 1)
    omega

theorem newline_not_mem_dump_line {k : String} (hk : plainToken k = true)
    (lvl : Nat) {suffix : List Char} (hsuf : newlineChar ∉ suffix) :
    newlineChar ∉ indentChars lvl ++ k.data ++ suffix := by
  intro h
  rcases List.mem_append.mp h with h1 | h2
  · rcases List.mem_append.mp h1 with ha | hb
    · rw [indentChars] at ha
      have hsp := List.eq_of_mem_replicate ha
      revert hsp
      decide
    · exact (plainToken_char hk hb).2.1 rfl
  · exact hsuf h2

theorem newline_not_mem_scalar_suffix {tok : String} (htok : plainToken tok = true) :
    newlineChar ∉ ':' :: ' ' :: tok.data := by
  intro h
  rcases List.mem_cons.mp h with h1 | h2
  · revert h1; decide
  · rcases List.mem_cons.mp h2 with h3 | h4
    · revert h3; decide
    · exact (plainToken_char htok h4).2.1 rfl

theorem dumpEntries_no_newline_aux (n : Nat) :
    ∀ (lvl : Nat) (es : List (String × YVal)), sizeOf es < n → wfEntries es = true →
      ∀ l ∈ dumpEntries lvl es, newlineChar ∉ l := by
  induction n with
  | zero => intro lvl es hsize; exact absurd hsize (Nat.not_lt_zero _)
  | succ n ih =>
    intro lvl es hsize hwf
    cases es with
    | nil =>
      rw [dumpEntries_nil]
      intro l hl
      cases hl
    | cons hd es' =>
      obtain ⟨k, v⟩ := hd
      have hsize' : sizeOf es' < n := by
        simp only [List.cons.sizeOf_spec, Prod.mk.sizeOf_spec] at hsize
        omega
      cases v with
      | scalar tok =>
        rw [wfEntries_scalar, Bool.and_eq_true, Bool.and_eq_true] at hwf
        rw [dumpEntries_scalar]
        intro l hl
        rcases List.mem_cons.mp hl with hEq | hmem
        · subst hEq
          exact newline_not_mem_dump_line hwf.1.1 lvl
            (newline_not_mem_scalar_suffix hwf.1.2)
        · exact ih lvl es' hsize' hwf.2 l hmem
      | dict sub =>
        have hsub : sizeOf sub < n := by
          simp only [List.cons.sizeOf_spec, Prod.mk.sizeOf_spec, YVal.dict.sizeOf_spec]
            at hsize
          omega
        rw [wfEntries_dict] at hwf
        simp only [Bool.and_eq_true] at hwf
        rw [dumpEntries_dict]
        intro l hl
        rcases List.mem_cons.mp hl with hEq | hmem
        · subst hEq
          exact newline_not_mem_dump_line hwf.1.1.1.1 lvl (by decide)
        · rcases List.mem_append.mp hmem with hsubm | hrest
          · exact ih (lvl + 1) sub hsub hwf.1.2 l hsubm
          · exact ih lvl es' hsize' hwf.2 l hrest
      | seq items => rw [wfEntries_seq] at hwf; exact absurd hwf (by decide)
      | nullv => rw [wfEntries_nullv] at hwf; exact absurd hwf (by decide)

theorem dumpEntries_no_newline (lvl : Nat) (es : List (String × YVal))
    (hwf : wfEntries es = true) : ∀ l ∈ dumpEntries lvl es, newlineChar ∉ l :=
  dumpEntries_no_newline_aux (sizeOf es + 1) lvl es (Nat.lt_succ_self _) hwf

theorem firstLine_append (l rest : List Char) (h : newlineChar ∉ l) :
    firstLine (l ++ newlineChar :: rest) = (l, rest) := by
  induction l with
  | nil => rw [List.nil_append, firstLine, if_pos rfl]
  | cons c l' ih =>
    have hc : c ≠ newlineChar := fun hEq => h (hEq ▸ List.mem_cons_self c l')
    rw [List.cons_append, firstLine, if_neg hc,
      ih fun hm => h (List.mem_cons_of_mem c hm)]

theorem splitLines_cons_eq (text : List Char) (hne : text ≠ []) :
    splitLines text = (firstLine text).1 :: splitLines (firstLine text).2 := by
  cases text with
  | nil => exact absurd rfl hne
  | cons c rest => simp [splitLines]

theorem splitLines_joinLines (L : List (List Char)) (h : ∀ l ∈ L, newlineChar ∉ l) :
    splitLines (joinLines L) = L := by
  induction L with
  | nil => simp [joinLines, splitLines]
  | cons l L' ih =>
    have hjoin : joinLines (l :: L') = l ++ newlineChar :: joinLines L' := by
      simp [joinLines]
    rw [hjoin, splitLines_cons_eq _ (by simp),
      firstLine_append l _ (h l (List.mem_cons_self l L'))]
    exact congrArg _ (ih fun x hx => h x (List.mem_cons_of_mem l hx))

theorem parseBlock_dumpEntries (fuel : Nat) :
    ∀ (es : List (String × YVal)) (lvl : Nat) (rest : List (List Char)),
      wfEntries es = true → blockEnd lvl rest →
      (dumpEntries lvl es).length + rest.length + 1 ≤ fuel →
      parseBlock fuel lvl (dumpEntries lvl es ++ rest) = some (es, rest) := by
  induction fuel with
  | zero => intro es lvl rest _ _ hf; omega
  | succ fuel ih =>
    intro es lvl rest hwf hend hf
    cases es with
    | nil =>
      rw [dumpEntries_nil, List.nil_append]
      cases rest with
      | nil => rfl
      | cons line rest' =>
        have hlt : lineIndent line < 2 * lvl := hend
        rw [parseBlock, if_pos hlt]
    | cons hd es' =>
      obtain ⟨k, v⟩ := hd
      cases v with
      | scalar tok =>
        rw [wfEntries_scalar, Bool.and_eq_true, Bool.and_eq_true] at hwf
        have hk := hwf.1.1
        have htok := hwf.1.2
        have hres := hwf.2
        obtain ⟨c, cs, hdata⟩ := List.exists_cons_of_ne_nil (plainToken_ne_nil hk)
        have hc : c ≠ ' ' := (plainToken_char hk (hdata ▸ List.mem_cons_self c cs)).2.2
        have hind : lineIndent (indentChars lvl ++ k.data ++ ':' :: ' ' :: tok.data) =
            2 * lvl := by
          rw [List.append_assoc, indentChars, hdata, List.cons_append]
          exact lineIndent_replicate_cons (2 * lvl) hc _
        have hdrop : (indentChars lvl ++ k.data ++ ':' :: ' ' :: tok.data).drop (2 * lvl) =
            k.data ++ ':' :: ' ' :: tok.data := by
          rw [List.append_assoc, indentChars]
          exact drop_replicate_append _ _
        have hsplit : splitAtColon (k.data ++ ':' :: ' ' :: tok.data) =
            some (k.data, ' ' :: tok.data) :=
          splitAtColon_append _ fun hm => (plainToken_char hk hm).1 rfl
        have hkne : k.data.isEmpty = false := by
          simpa [List.isEmpty_iff] using plainToken_ne_nil hk
        have htokne : tok.data.isEmpty = false := by
          simpa [List.isEmpty_iff] using plainToken_ne_nil htok
        have hrec := ih es' lvl rest hres hend (by
          rw [dumpEntries_scalar, List.length_cons] at hf
          omega)
        rw [dumpEntries_scalar, List.cons_append, parseBlock,
          if_neg (by rw [hind]; omega), if_pos hind, hdrop, hsplit]
        simp only [hkne, htokne, hrec, Bool.false_eq_true, if_false, Bool.not_false,
          Bool.and_true, decide_eq_true_eq]
        rfl
      | dict sub =>
        rw [wfEntries_dict] at hwf
        simp only [Bool.and_eq_true] at hwf
        have hk := hwf.1.1.1.1
        have hsubne := hwf.1.1.1.2
        have hwfsub := hwf.1.2
        have hres := hwf.2
        obtain ⟨c, cs, hdata⟩ := List.exists_cons_of_ne_nil (plainToken_ne_nil hk)
        have hc : c ≠ ' ' := (plainToken_char hk (hdata ▸ List.mem_cons_self c cs)).2.2
        have hind : lineIndent (indentChars lvl ++ k.data ++ [':']) = 2 * lvl := by
          rw [List.append_assoc, indentChars, hdata, List.cons_append]
          exact lineIndent_replicate_cons (2 * lvl) hc _
        have hdrop : (indentChars lvl ++ k.data ++ [':']).drop (2 * lvl) =
            k.data ++ [':'] := by
          rw [List.append_assoc, indentChars]
          exact drop_replicate_append _ _
        have hsplit : splitAtColon (k.data ++ [':']) = some (k.data, []) :=
          splitAtColon_append _ fun hm => (plainToken_char hk hm).1 rfl
        have hkne : k.data.isEmpty = false := by
          simpa [List.isEmpty_iff] using plainToken_ne_nil hk
        have hlen : (dumpEntries (lvl + 1) sub).length + (dumpEntries lvl es').length +
            rest.length + 2 ≤ fuel + 1 := by
          rw [dumpEntries_dict, List.length_cons, List.length_append] at hf
          omega
        have hrec1 := ih sub (lvl + 1) (dumpEntries lvl es' ++ rest) hwfsub
          (blockEnd_dump_append hres hend) (by rw [List.length_append]; omega)
        have hrec2 := ih es' lvl rest hres hend (by omega)
        have hsubne' : sub.isEmpty = false := by
          rcases hs : sub.isEmpty with _ | _
          · rfl
          · rw [hs] at hsubne; exact absurd hsubne (by decide)
        rw [dumpEntries_dict, List.cons_append, List.append_assoc (dumpEntries (lvl + 1) sub),
          parseBlock, if_neg (by rw [hind]; omega), if_pos hind, hdrop, hsplit]
        simp only [hkne, Bool.false_eq_true, if_false, hrec1, hsubne', hrec2]
      | seq items => rw [wfEntries_seq] at hwf; exact absurd hwf (by decide)
      | nullv => rw [wfEntries_nullv] at hwf; exact absurd hwf (by decide)

theorem parse_canonical_dump (es : List (String × YVal)) (hwf : wfEntries es = true)
    (hne : es ≠ []) : parse_canonical (yaml_dump (.dict es)) = some (.dict es) := by
  have hlines : splitLines (yaml_dump (YVal.dict es)).data = dumpEntries 0 es := by
    show splitLines (joinLines (dumpEntries 0 es)) = dumpEntries 0 es
    exact splitLines_joinLines _ (dumpEntries_no_newline 0 es hwf)
  have hpb : parseBlock ((dumpEntries 0 es).length + 1) 0 (dumpEntries 0 es) =
      some (es, []) := by
    have h := parseBlock_dumpEntries ((dumpEntries 0 es).length + 1) es 0 [] hwf trivial
      (by simp)
    rwa [List.append_nil] at h
  have hesne : es.isEmpty = false := by
    cases es with
    | nil => exact absurd rfl hne
    | cons a as => rfl
  rw [parse_canonical, hlines, hpb]
  simp [hesne]

/-- Claim C9: canonicalisation is idempotent — running `load_cloud_config`
on its own canonical output (for a document of the canonical fragment)
parses back to the same mapping and re-serialises to byte-identical text. -/
theorem canonicalize_idempotent (v : YVal) (hwf : canonicalDoc v = true) :
    load_cloud_config_canonical (yaml_dump v) = .ok (yaml_dump v) := by
  cases v with
  | scalar tok => exact absurd hwf (by simp [canonicalDoc])
  | seq items => exact absurd hwf (by simp [canonicalDoc])
  | nullv => exact absurd hwf (by simp [canonicalDoc])
  | dict es =>
    rw [canonicalDoc, Bool.and_eq_true, Bool.and_eq_true] at hwf
    have hne : es ≠ [] := by
      intro hnil
      subst hnil
      exact absurd hwf.1.1 (by decide)
    rw [load_cloud_config_canonical, parse_canonical_dump es hwf.2 hne]
    rfl

/-- A two-level cloud-config document in canonical form. -/
def exampleDoc : YVal :=
  .dict [("hostname", .scalar "raspberrypi"),
         ("users", .dict [("name", .scalar "pi")])]

theorem canonicalize_idempotent_witness :
    load_cloud_config_canonical (yaml_dump exampleDoc) = .ok (yaml_dump exampleDoc) :=
  canonicalize_idempotent exampleDoc (by
    simp only [exampleDoc, canonicalDoc, wfEntries_scalar, wfEntries_dict, wfEntries_nil]
    decide)
